import Mathlib

/-!
Verification development for the redex CFG mutation and LocalDce core.

The definitions below are a shallow embedding of the C++ sources:
  - `LocalDce.cpp` (the liveness-driven dead-code elimination pass):
    `has_side_effects`, `update_liveness`, `LocalDce::is_required`,
    `LocalDce::assumenosideeffects`, `LocalDce::dce`;
  - `IRInstruction.h`: the operand-kind predicates (`has_literal`,
    `has_string`, ...) and register accessors.

External collaborators (method resolution, the global assume-no-side-effects
predicate, CFG edge lookup) are modelled as explicit parameters/oracles,
mirroring their interface contracts.
-/
namespace Redex

/-- The IR opcodes referenced by the embedded code.  The constructor set
covers every opcode named in `LocalDce.cpp`'s `has_side_effects` switch,
plus representative value-producing opcodes (const/move/move-result/
move-result-pseudo families, instance-of, check-cast, filled-new-array,
aget/iget/sget, add-int, nop) needed by the claims. -/
inductive IROpcode where
  | RETURN_VOID | RETURN | RETURN_WIDE | RETURN_OBJECT
  | MONITOR_ENTER | MONITOR_EXIT
  | FILL_ARRAY_DATA | THROW | GOTO | SWITCH
  | IF_EQ | IF_NE | IF_LT | IF_GE | IF_GT | IF_LE
  | IF_EQZ | IF_NEZ | IF_LTZ | IF_GEZ | IF_GTZ | IF_LEZ
  | APUT | APUT_WIDE | APUT_OBJECT | APUT_BOOLEAN | APUT_BYTE | APUT_CHAR | APUT_SHORT
  | IPUT | IPUT_WIDE | IPUT_OBJECT | IPUT_BOOLEAN | IPUT_BYTE | IPUT_CHAR | IPUT_SHORT
  | SPUT | SPUT_WIDE | SPUT_OBJECT | SPUT_BOOLEAN | SPUT_BYTE | SPUT_CHAR | SPUT_SHORT
  | INVOKE_VIRTUAL | INVOKE_SUPER | INVOKE_DIRECT | INVOKE_STATIC | INVOKE_INTERFACE
  | LOAD_PARAM | LOAD_PARAM_OBJECT | LOAD_PARAM_WIDE
  | NOP
  | CONST | CONST_WIDE | CONST_STRING | CONST_CLASS
  | MOVE | MOVE_WIDE | MOVE_OBJECT
  | MOVE_RESULT | MOVE_RESULT_WIDE | MOVE_RESULT_OBJECT
  | MOVE_RESULT_PSEUDO | MOVE_RESULT_PSEUDO_WIDE | MOVE_RESULT_PSEUDO_OBJECT
  | INSTANCE_OF | CHECK_CAST | FILLED_NEW_ARRAY
  | ADD_INT | AGET | IGET | SGET
  deriving DecidableEq, Repr, Fintype

namespace IROpcode

/-- Transcription of the `has_side_effects` switch in `LocalDce.cpp`:
these opcodes are always considered live regardless of whether their
output is consumed. -/
def has_side_effects : IROpcode → Bool
  | RETURN_VOID | RETURN | RETURN_WIDE | RETURN_OBJECT
  | MONITOR_ENTER | MONITOR_EXIT
  | FILL_ARRAY_DATA | THROW | GOTO | SWITCH
  | IF_EQ | IF_NE | IF_LT | IF_GE | IF_GT | IF_LE
  | IF_EQZ | IF_NEZ | IF_LTZ | IF_GEZ | IF_GTZ | IF_LEZ
  | APUT | APUT_WIDE | APUT_OBJECT | APUT_BOOLEAN | APUT_BYTE | APUT_CHAR | APUT_SHORT
  | IPUT | IPUT_WIDE | IPUT_OBJECT | IPUT_BOOLEAN | IPUT_BYTE | IPUT_CHAR | IPUT_SHORT
  | SPUT | SPUT_WIDE | SPUT_OBJECT | SPUT_BOOLEAN | SPUT_BYTE | SPUT_CHAR | SPUT_SHORT
  | INVOKE_VIRTUAL | INVOKE_SUPER | INVOKE_DIRECT | INVOKE_STATIC | INVOKE_INTERFACE
  | LOAD_PARAM | LOAD_PARAM_OBJECT | LOAD_PARAM_WIDE => true
  | _ => false

/-- Embeds `is_invoke` from `IROpcode.h`: the five invoke opcodes. -/
def is_invoke : IROpcode → Bool
  | INVOKE_VIRTUAL | INVOKE_SUPER | INVOKE_DIRECT | INVOKE_STATIC
  | INVOKE_INTERFACE => true
  | _ => false

/-- Embeds `is_conditional_branch` from `IROpcode.h`: the twelve if-opcodes. -/
def is_conditional_branch : IROpcode → Bool
  | IF_EQ | IF_NE | IF_LT | IF_GE | IF_GT | IF_LE
  | IF_EQZ | IF_NEZ | IF_LTZ | IF_GEZ | IF_GTZ | IF_LEZ => true
  | _ => false

/-- Embeds `is_switch` from `IROpcode.h`. -/
def is_switch : IROpcode → Bool
  | SWITCH => true
  | _ => false

/-- Embeds `is_filled_new_array` from `IROpcode.h`. -/
def is_filled_new_array : IROpcode → Bool
  | FILLED_NEW_ARRAY => true
  | _ => false

/-- Embeds `opcode::is_move_result_pseudo` from `IROpcode.h`: the synthetic
move-result-pseudo opcodes themselves. -/
def is_move_result_pseudo : IROpcode → Bool
  | MOVE_RESULT_PSEUDO | MOVE_RESULT_PSEUDO_WIDE
  | MOVE_RESULT_PSEUDO_OBJECT => true
  | _ => false

/-- Embeds `opcode::is_move_result_any` from `IROpcode.h`: move-result or
move-result-pseudo opcodes. -/
def is_move_result_any : IROpcode → Bool
  | MOVE_RESULT | MOVE_RESULT_WIDE | MOVE_RESULT_OBJECT
  | MOVE_RESULT_PSEUDO | MOVE_RESULT_PSEUDO_WIDE
  | MOVE_RESULT_PSEUDO_OBJECT => true
  | _ => false

/-- Embeds `opcode_impl::has_move_result_pseudo`: opcodes whose result is
delivered by a trailing move-result-pseudo entry (may-throw opcodes that
were split into two IR pieces: check-cast, instance-of, the array/field
reads, const-string/const-class in this IR). -/
def has_move_result_pseudo : IROpcode → Bool
  | INSTANCE_OF | CHECK_CAST | AGET | IGET | SGET
  | CONST_STRING | CONST_CLASS => true
  | _ => false

/-- Embeds `opcode_impl::has_dest`: opcodes that write a destination register
directly (not via the return-value slot). -/
def has_dest : IROpcode → Bool
  | CONST | CONST_WIDE
  | MOVE | MOVE_WIDE | MOVE_OBJECT
  | MOVE_RESULT | MOVE_RESULT_WIDE | MOVE_RESULT_OBJECT
  | MOVE_RESULT_PSEUDO | MOVE_RESULT_PSEUDO_WIDE | MOVE_RESULT_PSEUDO_OBJECT
  | ADD_INT
  | LOAD_PARAM | LOAD_PARAM_OBJECT | LOAD_PARAM_WIDE => true
  | _ => false

/-- The operand-kind discriminator `opcode::Ref` used by `IRInstruction.h`'s
`has_literal`/`has_string`/... predicates.  (`RNone`..`RData` mirror the C++
enumerators `None`..`Data`; `None` and `Type` are Lean keywords/builtins so
the names carry an `R` prefix.) -/
inductive Ref where
  | RNone | RLiteral | RString | RType | RField | RMethod | RData
  deriving DecidableEq, Repr, Fintype

/-- Embeds `opcode::ref`: the operand kind carried by each opcode. -/
def ref : IROpcode → Ref
  | CONST | CONST_WIDE => Ref.RLiteral
  | CONST_STRING => Ref.RString
  | CONST_CLASS | INSTANCE_OF | CHECK_CAST | FILLED_NEW_ARRAY => Ref.RType
  | IGET | SGET
  | IPUT | IPUT_WIDE | IPUT_OBJECT | IPUT_BOOLEAN | IPUT_BYTE | IPUT_CHAR
  | IPUT_SHORT
  | SPUT | SPUT_WIDE | SPUT_OBJECT | SPUT_BOOLEAN | SPUT_BYTE | SPUT_CHAR
  | SPUT_SHORT => Ref.RField
  | INVOKE_VIRTUAL | INVOKE_SUPER | INVOKE_DIRECT | INVOKE_STATIC
  | INVOKE_INTERFACE => Ref.RMethod
  | FILL_ARRAY_DATA => Ref.RData
  | _ => Ref.RNone

end IROpcode

/-- The instruction model from `IRInstruction.h`: an opcode, a destination
register, an ordered list of source registers, and a method reference
(the only operand payload the embedded claims inspect; references are
interned, so they are modelled as bare identifiers). -/
structure IRInstruction where
  opcode : IROpcode
  dest : ℕ := 0
  srcs : List ℕ := []
  mref : ℕ := 0
  deriving DecidableEq, Repr

namespace IRInstruction

/-- Embeds `IRInstruction::has_dest`. -/
def has_dest (i : IRInstruction) : Bool := i.opcode.has_dest

/-- Embeds `IRInstruction::has_move_result_pseudo`. -/
def has_move_result_pseudo (i : IRInstruction) : Bool :=
  i.opcode.has_move_result_pseudo

/-- Embeds `IRInstruction::has_literal`: `opcode::ref(m_opcode) == opcode::Ref::Literal`. -/
def has_literal (i : IRInstruction) : Bool := i.opcode.ref = IROpcode.Ref.RLiteral

/-- Embeds `IRInstruction::has_string`: `opcode::ref(m_opcode) == opcode::Ref::String`. -/
def has_string (i : IRInstruction) : Bool := i.opcode.ref = IROpcode.Ref.RString

/-- Embeds `IRInstruction::has_type`: `opcode::ref(m_opcode) == opcode::Ref::Type`. -/
def has_type (i : IRInstruction) : Bool := i.opcode.ref = IROpcode.Ref.RType

/-- Embeds `IRInstruction::has_field`: `opcode::ref(m_opcode) == opcode::Ref::Field`. -/
def has_field (i : IRInstruction) : Bool := i.opcode.ref = IROpcode.Ref.RField

/-- Embeds `IRInstruction::has_method`: `opcode::ref(m_opcode) == opcode::Ref::Method`. -/
def has_method (i : IRInstruction) : Bool := i.opcode.ref = IROpcode.Ref.RMethod

/-- Embeds `IRInstruction::has_data`: `opcode::ref(m_opcode) == opcode::Ref::Data`. -/
def has_data (i : IRInstruction) : Bool := i.opcode.ref = IROpcode.Ref.RData

end IRInstruction

/-! ### CFG edges and edge lookup -/
/-- Edge types from `ControlFlow.h` (`EDGE_GOTO`, `EDGE_BRANCH`,
`EDGE_THROW`).  Only the target end matters to the embedded code. -/
inductive EdgeType where
  | GOTO | BRANCH | THROW
  deriving DecidableEq, Repr

/-- A successor edge of a block: its type and the id of its target block.
(The source block is implicit: edges appear in their source block's
successor list.) -/
structure Edge where
  etype : EdgeType
  target : ℕ
  deriving DecidableEq, Repr

/-- Modelled from the spec: `ControlFlowGraph::get_succ_edge_of_type`
(implementation not under src/) "returns the unique outgoing edge of a
given type from a block; fails with a fatal assertion if a required
unique edge is absent".  The assertion-failure path is modelled as
`none`. -/
def get_succ_edge_of_type (succs : List Edge) (t : EdgeType) : Option Edge :=
  match succs.filter (fun e => e.etype = t) with
  | [e] => some e
  | _ => none

/-- Modelled from the spec: `ControlFlowGraph::get_succ_edges_of_type`
returns all outgoing edges of the given type, in successor-list order. -/
def get_succ_edges_of_type (succs : List Edge) (t : EdgeType) : List Edge :=
  succs.filter (fun e => e.etype = t)

/-! ### LocalDce: liveness transfer and is_required -/
/-- Embeds `update_liveness` from `LocalDce.cpp`, over a liveness bit-vector of
size `regs + 1` modelled as the finite set of set bit positions; the
return-value slot is the max position `bliveness.size() - 1 = regs`.
The update steps appear in source order: kill the destination bit,
clear the return-value slot for invoke/filled-new-array/
move-result-pseudo-producing opcodes, set every source bit, and set the
return-value slot for move-result(-pseudo) opcodes. -/
def update_liveness (regs : ℕ) (inst : IRInstruction) (l : Finset ℕ) :
    Finset ℕ :=
  let l1 := if inst.has_dest then l.erase inst.dest else l
  let l2 := if inst.opcode.is_invoke || inst.opcode.is_filled_new_array
               || inst.has_move_result_pseudo then l1.erase regs else l1
  let l3 := inst.srcs.foldl (fun acc r => insert r acc) l2
  if inst.opcode.is_move_result_any then insert regs l3 else l3

/-- The external collaborators of `LocalDce::is_required`:
`resolve_method(ref, opcode_to_search(inst))` (resolution depends on the
invoke opcode, hence the opcode argument), the global
`::assumenosideeffects(DexMethod*)` predicate, and the caller-supplied
`m_pure_methods` set.  Methods and method references are interned, so
both are modelled as bare natural-number identifiers. -/
structure DceOracle where
  resolve : IROpcode → ℕ → Option ℕ
  globalAssume : ℕ → Bool
  pureMethods : Finset ℕ

/-- Embeds `LocalDce::assumenosideeffects(DexMethodRef* ref, DexMethod* meth)`:
the global predicate on the resolved method, or membership of the
reference in `m_pure_methods`. -/
def assumenosideeffects (o : DceOracle) (ref meth : ℕ) : Bool :=
  o.globalAssume meth || decide (ref ∈ o.pureMethods)

/-- Embeds `LocalDce::is_required` from `LocalDce.cpp`.  `succs` is the list of
successor edges of the block holding `inst`; `regs` is the CFG's register
count, so the liveness vector has `regs + 1` bits and
`bliveness.size() - 1 = regs` is the return-value slot.  The
`always_assert(goto_edge != nullptr)` / `always_assert(branch_edge !=
nullptr)` failure paths (which abort the process) are modelled as
returning `true`; the claims about well-formed blocks never reach them. -/
def is_required (o : DceOracle) (regs : ℕ) (succs : List Edge)
    (inst : IRInstruction) (l : Finset ℕ) : Bool :=
  if inst.opcode.has_side_effects then
    if inst.opcode.is_invoke then
      match o.resolve inst.opcode inst.mref with
      | none => true
      | some meth =>
        if !assumenosideeffects o inst.mref meth then true
        else decide (regs ∈ l)
    else if inst.opcode.is_conditional_branch then
      match get_succ_edge_of_type succs EdgeType.GOTO,
            get_succ_edge_of_type succs EdgeType.BRANCH with
      | some g, some br => decide (g.target ≠ br.target)
      | _, _ => true
    else if inst.opcode.is_switch then
      match get_succ_edge_of_type succs EdgeType.GOTO with
      | some g =>
        (get_succ_edges_of_type succs EdgeType.BRANCH).any
          (fun br => decide (g.target ≠ br.target))
      | none => true
    else true
  else if inst.has_dest then
    decide (inst.dest ∈ l)
  else if inst.opcode.is_filled_new_array || inst.has_move_result_pseudo then
    decide (regs ∈ l)
  else false

/-! ### LocalDce::dce — the fixed-point sweep loop

`LocalDce::dce` builds the CFG, initializes one liveness bit-vector of
size `regs + 1` per block to all-zero, then repeats full sweeps over
`cfg.blocks_post()` until no block's vector changes; each sweep
recomputes a block's vector from its successors' vectors and walks the
block's instructions in reverse, recording not-required instructions
(except move-result-pseudo entries) for deletion.  The deletion phase
afterwards removes each recorded instruction at most once, guarded by a
`seen` set. -/
/-- A basic block as `LocalDce::dce` consumes it: its stable id, its
instruction entries in forward order (only `MFLOW_OPCODE` entries
matter to the pass and are modelled), and its successor edges. -/
structure Block where
  id : ℕ
  insns : List IRInstruction
  succs : List Edge
  deriving DecidableEq, Repr

/-- The CFG as `LocalDce::dce` consumes it: the `blocks_post()` ordering
of blocks, and `get_registers_size()`. -/
structure ControlFlowGraph where
  blocks : List Block
  regs : ℕ
  deriving DecidableEq, Repr

/-- The per-block liveness state: block id ↦ set bit positions of that
block's bit-vector (`std::unordered_map<BlockId, dynamic_bitset>`;
absent blocks map to the all-zero vector they are initialized with). -/
def LiveMap : Type := ℕ → Finset ℕ

/-- Point update of the liveness state at one block id. -/
def updateMap (live : LiveMap) (id : ℕ) (s : Finset ℕ) : LiveMap :=
  fun j => if j = id then s else live j

/-- The live-out computation at the top of the sweep body: the block's
vector is reset, then or-ed with each successor's vector.  The source's
self-loop special case (`bliveness |= prev_liveness`) exists because the
C++ accumulates in place into the map slot it just reset; in this
functional model `live` is unchanged while `b` is being processed, so
`live b.id` still holds the previous sweep's vector and the or-fold over
successors covers the self-loop contribution verbatim. -/
def liveOut (live : LiveMap) (b : Block) : Finset ℕ :=
  b.succs.foldl (fun acc e => acc ∪ live e.target) ∅

/-- The reverse instruction walk of one sweep body (`for it = rbegin()
.. rend()`): takes the block's instructions already reversed, threads
the liveness vector through `is_required`/`update_liveness`, and
returns the resulting live-in vector together with the not-required
instructions recorded for deletion (skipping move-result-pseudo
entries, which are deleted alongside their primary instruction). -/
def walkRev (o : DceOracle) (regs : ℕ) (succs : List Edge) :
    List IRInstruction → Finset ℕ → Finset ℕ × List IRInstruction
  | [], l => (l, [])
  | i :: rest, l =>
    if is_required o regs succs i l then
      walkRev o regs succs rest (update_liveness regs i l)
    else
      let r := walkRev o regs succs rest l
      if i.opcode.is_move_result_pseudo then r else (r.1, i :: r.2)

/-- One full sweep of the do-while body over the block list (in
`blocks_post()` order), updating the liveness map in place
(Gauss–Seidel), computing the `changed` flag, and collecting the
recorded dead instructions tagged with their block id. -/
def sweep (o : DceOracle) (regs : ℕ) :
    LiveMap → List Block → LiveMap × Bool × List (ℕ × IRInstruction)
  | live, [] => (live, false, [])
  | live, b :: bs =>
    let prev := live b.id
    let r := walkRev o regs b.succs b.insns.reverse (liveOut live b)
    let rest := sweep o regs (updateMap live b.id r.1) bs
    (rest.1, (decide (r.1 ≠ prev) || rest.2.1),
      r.2.map (fun i => (b.id, i)) ++ rest.2.2)

/-- The do-while loop of `LocalDce::dce`, with explicit fuel (the C++
loop has none; the termination theorem shows the fuel used by `dce`
below is never exhausted).  Returns the number of executed sweeps, the
final liveness map, and the dead instructions recorded by the final
(unchanged) sweep — the list the deletion phase consumes. -/
def dceIter (o : DceOracle) (c : ControlFlowGraph) :
    ℕ → LiveMap → Option (ℕ × LiveMap × List (ℕ × IRInstruction))
  | 0, _ => none
  | fuel + 1, live =>
    let r := sweep o c.regs live c.blocks
    if r.2.1 then (dceIter o c fuel r.1).map (fun p => (p.1 + 1, p.2)) else
      some (1, r.1, r.2.2)

/-- The sweep count of a `dceIter` run from the all-zero liveness state. -/
def dceSweepCount (o : DceOracle) (c : ControlFlowGraph) (fuel : ℕ) :
    Option ℕ :=
  (dceIter o c fuel (fun _ => ∅)).map (fun p => p.1)

/-- The deletion phase of `LocalDce::dce`: walk the recorded dead
entries, skip those already `seen`, and pass the rest to
`Block::remove_insn` in order.  Entries are compared by the identity the
C++ dedups on (the `IRInstruction*` pointer); the returned list is the
sequence of `remove_insn` calls. -/
def deletionSequence {α : Type} [DecidableEq α] :
    List α → Finset α → List α
  | [], _ => []
  | x :: xs, seen =>
    if x ∈ seen then deletionSequence xs seen
    else x :: deletionSequence xs (insert x seen)

/-! ### The sweep-count measure and termination -/
/-- The total number of set bits across the blocks' liveness vectors. -/
def phi (c : ControlFlowGraph) (live : LiveMap) : ℕ :=
  c.blocks.toFinset.sum (fun b => (live b.id).card)

/-- The liveness map after `n` full sweeps of the do-while body, starting
from the all-zero initialization. -/
def sweepSeq (o : DceOracle) (c : ControlFlowGraph) (n : ℕ) : LiveMap :=
  (fun live => (sweep o c.regs live c.blocks).1)^[n] (fun _ => ∅)

/-- The `changed` flag computed by the `(n+1)`-st sweep. -/
def changedAt (o : DceOracle) (c : ControlFlowGraph) (n : ℕ) : Bool :=
  (sweep o c.regs (sweepSeq o c n) c.blocks).2.1

/-- A trivial oracle: nothing resolves, nothing is assumed pure.  None of
the opcodes in `exampleCfg` consult it. -/
def exampleOracle : DceOracle := ⟨fun _ _ => none, fun _ => false, ∅⟩

/-- A one-block CFG with a self-loop: `aput v0, v0, v0; move-result v0`
with a GOTO edge back to the block itself, using one register
(`get_registers_size() = 1`, liveness vectors of size 2). -/
def exampleCfg : ControlFlowGraph :=
  ⟨[⟨0, [⟨IROpcode.APUT, 0, [0, 0, 0], 0⟩, ⟨IROpcode.MOVE_RESULT, 0, [], 0⟩],
      [⟨EdgeType.GOTO, 0⟩]⟩], 1⟩

/-! ### CFG Mutation Buffer (spec-modelled)

The `CFGMutation` implementation is not part of the sources under
verification — only its unit tests (`CFGMutationTest`) are.  The
definitions below are therefore modelled from the spec (§4.1 "CFG
Mutation Buffer") and validated against the test fixtures. -/
/-- Embeds the `CFGMutation::Insert` enum: where queued instructions land relative to
their anchor. -/
inductive Insert where
  | Before | After | Replacing
  deriving DecidableEq, Repr

/-- One queued `add_change(kind, anchor, new_instructions)` call.  The
anchor is the identity of an existing instruction in the CFG (the C++
addresses it by `IRInstruction*`; instruction identities are modelled as
numeric uids). -/
structure Change where
  kind : Insert
  anchor : ℕ
  insns : List IRInstruction
  deriving DecidableEq, Repr

/-- An instruction position in the CFG: its identity plus its value. -/
structure MInsn where
  uid : ℕ
  insn : IRInstruction
  deriving DecidableEq, Repr

/-- Modelled from the spec: the pending `Before`/`After` insertions for
one anchor, materialized in `add_change` call order. -/
def insnsFor (changes : List Change) (k : Insert) (u : ℕ) :
    List IRInstruction :=
  (changes.filter (fun ch => decide (ch.kind = k ∧ ch.anchor = u))).flatMap
    Change.insns

/-- Modelled from the spec: the pending `Replacing` change for one
anchor, if any. -/
def replFor (changes : List Change) (u : ℕ) :
    Option (List IRInstruction) :=
  (changes.find? (fun ch =>
      decide (ch.kind = Insert.Replacing ∧ ch.anchor = u))).map Change.insns

/-- Modelled from the spec: `CFGMutation::flush` walks the instruction
stream once; at each position it materializes the outstanding `Before`
edits, then the instruction itself (or its `Replacing` replacement),
then the outstanding `After` edits, in `add_change` call order.  A
`Replacing` change on an anchor that carries an implicit
move-result-pseudo successor also removes that successor as part of the
same edit.  Changes whose anchor never appears are dropped silently. -/
def flushAux (changes : List Change) : List MInsn → Bool → List IRInstruction
  | [], _ => []
  | m :: rest, skip =>
    if skip && m.insn.opcode.is_move_result_pseudo then
      flushAux changes rest false
    else
      let befores := insnsFor changes Insert.Before m.uid
      let afters := insnsFor changes Insert.After m.uid
      match replFor changes m.uid with
      | some rs =>
        befores ++ rs ++ afters ++
          flushAux changes rest m.insn.has_move_result_pseudo
      | none => befores ++ m.insn :: (afters ++ flushAux changes rest false)

/-- Entry point: `CFGMutation::flush` applied to a whole instruction stream (no
pending pseudo-removal at entry). -/
def flush (changes : List Change) (xs : List MInsn) : List IRInstruction :=
  flushAux changes xs false

/-- Auxiliary for C10, proved over the finite opcode type: at most one of
the six operand-kind tests holds for any opcode. -/
lemma ref_kinds_exclusive (op : IROpcode) :
    ([decide (op.ref = IROpcode.Ref.RLiteral),
      decide (op.ref = IROpcode.Ref.RString),
      decide (op.ref = IROpcode.Ref.RType),
      decide (op.ref = IROpcode.Ref.RField),
      decide (op.ref = IROpcode.Ref.RMethod),
      decide (op.ref = IROpcode.Ref.RData)].count (true : Bool)) ≤ 1 := by
  revert op; decide

/-- C10: For every IRInstruction, the operand-kind predicates
`has_literal`, `has_string`, `has_type`, `has_field`, `has_method`,
`has_data` are pairwise mutually exclusive — at most one of them returns
true — since each compares `opcode::ref` with a distinct `Ref` constant. -/
theorem C10_operand_kinds_mutually_exclusive (i : IRInstruction) :
    ([i.has_literal, i.has_string, i.has_type, i.has_field, i.has_method,
      i.has_data].count (true : Bool)) ≤ 1 :=
  ref_kinds_exclusive i.opcode

/-! ### Opcode-classification facts used by the claim proofs -/
lemma cond_branch_class (op : IROpcode)
    (h : op.is_conditional_branch = true) :
    op.has_side_effects = true ∧ op.is_invoke = false := by
  revert op h; decide

lemma switch_class (op : IROpcode) (h : op.is_switch = true) :
    op.has_side_effects = true ∧ op.is_invoke = false ∧
      op.is_conditional_branch = false := by
  revert op h; decide

lemma invoke_class (op : IROpcode) (h : op.is_invoke = true) :
    op.has_side_effects = true := by
  revert op h; decide

lemma retslot_producer_not_mra (op : IROpcode)
    (h : (op.is_invoke || op.is_filled_new_array
           || op.has_move_result_pseudo) = true) :
    op.is_move_result_any = false := by
  revert op h; decide

lemma mem_foldl_insert (xs : List ℕ) (s : Finset ℕ) (x : ℕ) :
    x ∈ xs.foldl (fun acc r => insert r acc) s ↔ x ∈ xs ∨ x ∈ s := by
  induction xs generalizing s with
  | nil => simp
  | cons y ys ih =>
    simp only [List.foldl_cons, ih, Finset.mem_insert, List.mem_cons]
    tauto

/-- Membership characterization of `update_liveness`: a bit is set
afterwards iff it is the return-value slot of a move-result(-pseudo), a
source register, or was set before and is neither the killed destination
nor a consumed return-value slot. -/
lemma mem_update_liveness (regs : ℕ) (inst : IRInstruction) (l : Finset ℕ)
    (x : ℕ) :
    x ∈ update_liveness regs inst l ↔
      (inst.opcode.is_move_result_any = true ∧ x = regs)
      ∨ x ∈ inst.srcs
      ∨ (x ∈ l ∧ (inst.has_dest = true → x ≠ inst.dest)
          ∧ ((inst.opcode.is_invoke || inst.opcode.is_filled_new_array
               || inst.has_move_result_pseudo) = true → x ≠ regs)) := by
  unfold update_liveness
  by_cases h1 : inst.has_dest = true <;>
    by_cases h2 : (inst.opcode.is_invoke || inst.opcode.is_filled_new_array
        || inst.has_move_result_pseudo) = true <;>
      by_cases h3 : inst.opcode.is_move_result_any = true <;>
        simp [h1, h2, h3, mem_foldl_insert, Finset.mem_insert,
          Finset.mem_erase] <;> tauto

/-- C1: For a block ending in a conditional branch (whose opcode is
classified side-effecting), `LocalDce::is_required` returns true iff the
block's unique GOTO successor edge and its unique BRANCH successor edge
have different target blocks; when both target the same block, the
branch is classified dead. -/
theorem C1_conditional_branch_required_iff_targets_differ
    (o : DceOracle) (regs : ℕ) (succs : List Edge) (inst : IRInstruction)
    (l : Finset ℕ) (g br : Edge)
    (hop : inst.opcode.is_conditional_branch = true)
    (hg : get_succ_edge_of_type succs EdgeType.GOTO = some g)
    (hbr : get_succ_edge_of_type succs EdgeType.BRANCH = some br) :
    inst.opcode.has_side_effects = true ∧
      (is_required o regs succs inst l = true ↔ g.target ≠ br.target) := by
  obtain ⟨hse, hni⟩ := cond_branch_class inst.opcode hop
  refine ⟨hse, ?_⟩
  simp [is_required, hse, hni, hop, hg, hbr]

/-- Witness for C1 at a concrete conditional branch whose two edges go to
different blocks. -/
theorem C1_witness :
    (IROpcode.IF_EQZ : IROpcode).is_conditional_branch = true ∧
    get_succ_edge_of_type [⟨EdgeType.GOTO, 1⟩, ⟨EdgeType.BRANCH, 2⟩]
      EdgeType.GOTO = some ⟨EdgeType.GOTO, 1⟩ ∧
    get_succ_edge_of_type [⟨EdgeType.GOTO, 1⟩, ⟨EdgeType.BRANCH, 2⟩]
      EdgeType.BRANCH = some ⟨EdgeType.BRANCH, 2⟩ ∧
    ((IROpcode.IF_EQZ : IROpcode).has_side_effects = true ∧
      (is_required ⟨fun _ _ => none, fun _ => false, ∅⟩ 1
          [⟨EdgeType.GOTO, 1⟩, ⟨EdgeType.BRANCH, 2⟩]
          ⟨IROpcode.IF_EQZ, 0, [0], 0⟩ ∅ = true ↔
        (⟨EdgeType.GOTO, 1⟩ : Edge).target ≠
          (⟨EdgeType.BRANCH, 2⟩ : Edge).target)) :=
  ⟨by decide, by decide, by decide,
    C1_conditional_branch_required_iff_targets_differ
      ⟨fun _ _ => none, fun _ => false, ∅⟩ 1
      [⟨EdgeType.GOTO, 1⟩, ⟨EdgeType.BRANCH, 2⟩]
      ⟨IROpcode.IF_EQZ, 0, [0], 0⟩ ∅ ⟨EdgeType.GOTO, 1⟩
      ⟨EdgeType.BRANCH, 2⟩ (by decide) (by decide) (by decide)⟩

/-- C2: For a block ending in a switch, `LocalDce::is_required` returns
true iff at least one BRANCH (case) successor edge targets a block
different from the GOTO (default) edge's target; a switch with zero
BRANCH edges is never required. -/
theorem C2_switch_required_iff_some_case_differs
    (o : DceOracle) (regs : ℕ) (succs : List Edge) (inst : IRInstruction)
    (l : Finset ℕ) (g : Edge)
    (hop : inst.opcode.is_switch = true)
    (hg : get_succ_edge_of_type succs EdgeType.GOTO = some g) :
    (is_required o regs succs inst l = true ↔
      ∃ br ∈ get_succ_edges_of_type succs EdgeType.BRANCH,
        g.target ≠ br.target)
    ∧ (get_succ_edges_of_type succs EdgeType.BRANCH = [] →
        is_required o regs succs inst l = false) := by
  obtain ⟨hse, hni, hnb⟩ := switch_class inst.opcode hop
  constructor
  · simp [is_required, hse, hni, hnb, hop, hg, List.any_eq_true]
  · intro hemp
    simp [is_required, hse, hni, hnb, hop, hg, hemp]

/-- Witness for C2 at a concrete switch with one case edge targeting the
default's block and one targeting a different block. -/
theorem C2_witness :
    (IROpcode.SWITCH : IROpcode).is_switch = true ∧
    get_succ_edge_of_type
        [⟨EdgeType.GOTO, 1⟩, ⟨EdgeType.BRANCH, 1⟩, ⟨EdgeType.BRANCH, 2⟩]
        EdgeType.GOTO = some ⟨EdgeType.GOTO, 1⟩ ∧
    ((is_required ⟨fun _ _ => none, fun _ => false, ∅⟩ 1
        [⟨EdgeType.GOTO, 1⟩, ⟨EdgeType.BRANCH, 1⟩, ⟨EdgeType.BRANCH, 2⟩]
        ⟨IROpcode.SWITCH, 0, [0], 0⟩ ∅ = true ↔
      ∃ br ∈ get_succ_edges_of_type
          [⟨EdgeType.GOTO, 1⟩, ⟨EdgeType.BRANCH, 1⟩, ⟨EdgeType.BRANCH, 2⟩]
          EdgeType.BRANCH,
        (⟨EdgeType.GOTO, 1⟩ : Edge).target ≠ br.target)
    ∧ (get_succ_edges_of_type
          [⟨EdgeType.GOTO, 1⟩, ⟨EdgeType.BRANCH, 1⟩, ⟨EdgeType.BRANCH, 2⟩]
          EdgeType.BRANCH = [] →
        is_required ⟨fun _ _ => none, fun _ => false, ∅⟩ 1
          [⟨EdgeType.GOTO, 1⟩, ⟨EdgeType.BRANCH, 1⟩, ⟨EdgeType.BRANCH, 2⟩]
          ⟨IROpcode.SWITCH, 0, [0], 0⟩ ∅ = false)) :=
  ⟨by decide, by decide,
    C2_switch_required_iff_some_case_differs
      ⟨fun _ _ => none, fun _ => false, ∅⟩ 1
      [⟨EdgeType.GOTO, 1⟩, ⟨EdgeType.BRANCH, 1⟩, ⟨EdgeType.BRANCH, 2⟩]
      ⟨IROpcode.SWITCH, 0, [0], 0⟩ ∅ ⟨EdgeType.GOTO, 1⟩
      (by decide) (by decide)⟩

/-- C3: An invoke whose target resolves and is proven side-effect-free
(by the global assume-no-side-effects predicate or membership of its
method reference in the caller-supplied pure-methods set) is required iff
the return-value slot bit — highest position `regs` of the liveness
vector — is live; every other invoke (unresolved, or resolved but not
proven pure) is always required. -/
theorem C3_pure_invoke_required_iff_result_live
    (o : DceOracle) (regs : ℕ) (succs : List Edge) (inst : IRInstruction)
    (l : Finset ℕ) (hop : inst.opcode.is_invoke = true) :
    (∀ m, o.resolve inst.opcode inst.mref = some m →
      ((o.globalAssume m = true ∨ inst.mref ∈ o.pureMethods) →
        (is_required o regs succs inst l = true ↔ regs ∈ l))
      ∧ ((o.globalAssume m = false ∧ inst.mref ∉ o.pureMethods) →
        is_required o regs succs inst l = true))
    ∧ (o.resolve inst.opcode inst.mref = none →
        is_required o regs succs inst l = true) := by
  have hse := invoke_class inst.opcode hop
  constructor
  · intro m hm
    constructor
    · intro hpure
      have ha : assumenosideeffects o inst.mref m = true := by
        rcases hpure with h | h <;> simp [assumenosideeffects, h]
      simp [is_required, hse, hop, hm, ha]
    · rintro ⟨h1, h2⟩
      have ha : assumenosideeffects o inst.mref m = false := by
        simp [assumenosideeffects, h1, h2]
      simp [is_required, hse, hop, hm, ha]
  · intro hm
    simp [is_required, hse, hop, hm]

/-- Witness for C3 at a concrete invoke-static of method reference 7,
resolved to method 3 that is in the pure set, with a dead return-value
slot. -/
theorem C3_witness :
    (IROpcode.INVOKE_STATIC : IROpcode).is_invoke = true ∧
    ((∀ m, (fun (_ : IROpcode) (_ : ℕ) => some 3) IROpcode.INVOKE_STATIC
          (7 : ℕ) = some m →
      (((fun (_ : ℕ) => false) m = true ∨ (7 : ℕ) ∈ ({7} : Finset ℕ)) →
        (is_required ⟨fun _ _ => some 3, fun _ => false, {7}⟩ 1 []
            ⟨IROpcode.INVOKE_STATIC, 0, [0], 7⟩ {0} = true ↔
          (1 : ℕ) ∈ ({0} : Finset ℕ)))
      ∧ (((fun (_ : ℕ) => false) m = false ∧ (7 : ℕ) ∉ ({7} : Finset ℕ)) →
        is_required ⟨fun _ _ => some 3, fun _ => false, {7}⟩ 1 []
          ⟨IROpcode.INVOKE_STATIC, 0, [0], 7⟩ {0} = true))
    ∧ ((fun (_ : IROpcode) (_ : ℕ) => some 3) IROpcode.INVOKE_STATIC
          (7 : ℕ) = none →
        is_required ⟨fun _ _ => some 3, fun _ => false, {7}⟩ 1 []
          ⟨IROpcode.INVOKE_STATIC, 0, [0], 7⟩ {0} = true)) :=
  ⟨by decide,
    C3_pure_invoke_required_iff_result_live
      ⟨fun _ _ => some 3, fun _ => false, {7}⟩ 1 []
      ⟨IROpcode.INVOKE_STATIC, 0, [0], 7⟩ {0} (by decide)⟩

/-- C9: An invoke whose method reference fails to resolve
(`resolve_method` returns null) is always required, even when the
reference is in the caller-supplied pure-methods set: that set is only
consulted after successful resolution. -/
theorem C9_unresolved_invoke_always_required
    (o : DceOracle) (regs : ℕ) (succs : List Edge) (inst : IRInstruction)
    (l : Finset ℕ) (hop : inst.opcode.is_invoke = true)
    (hres : o.resolve inst.opcode inst.mref = none)
    (_hmem : inst.mref ∈ o.pureMethods) :
    is_required o regs succs inst l = true := by
  simp [is_required, invoke_class inst.opcode hop, hop, hres]

/-- Witness for C9: an unresolvable invoke-virtual of method reference 7
which is nevertheless in the pure set. -/
theorem C9_witness :
    (IROpcode.INVOKE_VIRTUAL : IROpcode).is_invoke = true ∧
    (⟨fun _ _ => none, fun _ => true, {7}⟩ : DceOracle).resolve
      IROpcode.INVOKE_VIRTUAL 7 = none ∧
    (7 : ℕ) ∈ (⟨fun _ _ => none, fun _ => true, {7}⟩ : DceOracle).pureMethods ∧
    is_required ⟨fun _ _ => none, fun _ => true, {7}⟩ 2 []
      ⟨IROpcode.INVOKE_VIRTUAL, 0, [0, 1], 7⟩ {2} = true :=
  ⟨by decide, by decide, by decide,
    C9_unresolved_invoke_always_required
      ⟨fun _ _ => none, fun _ => true, {7}⟩ 2 []
      ⟨IROpcode.INVOKE_VIRTUAL, 0, [0, 1], 7⟩ {2}
      (by decide) (by decide) (by decide)⟩

/-- C5: For a required instruction, `update_liveness` afterwards has: the
destination bit cleared unless the destination also occurs among the
sources; every source bit set; the return-value slot (position `regs`)
cleared for invoke, filled-new-array, and move-result-pseudo-producing
opcodes; and the return-value slot set for move-result(-pseudo) opcodes.
Register operands lie below the return-value slot position. -/
theorem C5_update_liveness_effects (regs : ℕ) (inst : IRInstruction)
    (l : Finset ℕ) (hd : inst.dest < regs) (hs : ∀ r ∈ inst.srcs, r < regs) :
    (inst.has_dest = true → inst.dest ∉ inst.srcs →
      inst.dest ∉ update_liveness regs inst l)
    ∧ (∀ r ∈ inst.srcs, r ∈ update_liveness regs inst l)
    ∧ ((inst.opcode.is_invoke || inst.opcode.is_filled_new_array
          || inst.has_move_result_pseudo) = true →
        regs ∉ update_liveness regs inst l)
    ∧ (inst.opcode.is_move_result_any = true →
        regs ∈ update_liveness regs inst l) := by
  refine ⟨?_, ?_, ?_, ?_⟩
  · intro hdest hnotsrc
    rw [mem_update_liveness]
    rintro (⟨_, h⟩ | h | ⟨_, h, _⟩)
    · exact absurd h (Nat.ne_of_lt hd)
    · exact hnotsrc h
    · exact h hdest rfl
  · intro r hr
    rw [mem_update_liveness]
    exact Or.inr (Or.inl hr)
  · intro hcond
    rw [mem_update_liveness]
    rintro (⟨hmra, _⟩ | h | ⟨_, _, h⟩)
    · exact absurd hmra (by simp [retslot_producer_not_mra inst.opcode hcond])
    · exact absurd (hs regs h) (lt_irrefl regs)
    · exact h hcond rfl
  · intro hmra
    rw [mem_update_liveness]
    exact Or.inl ⟨hmra, rfl⟩

/-- No element of a `walkRev` dead list is a move-result-pseudo. -/
lemma walkRev_no_pseudo (o : DceOracle) (regs : ℕ) (succs : List Edge)
    (xs : List IRInstruction) (l : Finset ℕ) :
    ∀ i ∈ (walkRev o regs succs xs l).2,
      i.opcode.is_move_result_pseudo = false := by
  induction xs generalizing l with
  | nil => simp [walkRev]
  | cons x rest ih =>
    intro i hi
    by_cases hreq : is_required o regs succs x l = true
    · rw [walkRev] at hi
      simp only [hreq, if_true] at hi
      exact ih _ i hi
    · by_cases hps : x.opcode.is_move_result_pseudo = true
      · simp only [walkRev, hreq, if_false, hps, if_true] at hi
        exact ih _ i hi
      · simp only [walkRev, hreq, if_false, hps, List.mem_cons] at hi
        cases hi with
        | head => simpa using hps
        | tail _ h => exact ih _ i h

/-- No element of a sweep's recorded dead list is a move-result-pseudo. -/
lemma sweep_no_pseudo (o : DceOracle) (regs : ℕ) (live : LiveMap)
    (bs : List Block) :
    ∀ p ∈ (sweep o regs live bs).2.2,
      p.2.opcode.is_move_result_pseudo = false := by
  induction bs generalizing live with
  | nil => simp [sweep]
  | cons b rest ih =>
    intro p hp
    unfold sweep at hp
    simp only [List.mem_append, List.mem_map] at hp
    rcases hp with ⟨i, hi, rfl⟩ | hp
    · exact walkRev_no_pseudo o regs b.succs b.insns.reverse _ i hi
    · exact ih _ p hp

/-- The deletion loop never emits an element of `seen`, and never emits
an element twice. -/
lemma deletionSequence_nodup {α : Type} [DecidableEq α] (xs : List α)
    (seen : Finset α) :
    (deletionSequence xs seen).Nodup ∧
      ∀ x ∈ deletionSequence xs seen, x ∉ seen := by
  induction xs generalizing seen with
  | nil => simp [deletionSequence]
  | cons y ys ih =>
    by_cases hy : y ∈ seen
    · simpa [deletionSequence, hy] using ih seen
    · obtain ⟨h1, h2⟩ := ih (insert y seen)
      refine ⟨?_, ?_⟩
      · simp only [deletionSequence, hy, if_false, List.nodup_cons]
        exact ⟨fun hmem => (h2 y hmem) (Finset.mem_insert_self y seen), h1⟩
      · intro x hx
        simp only [deletionSequence, hy, if_false, List.mem_cons] at hx
        rcases hx with rfl | hx
        · exact hy
        · exact fun hmem => (h2 x hx) (Finset.mem_insert_of_mem hmem)

/-! ### Monotonicity of the liveness transfer -/
lemma invoke_no_dest (op : IROpcode) (h : op.is_invoke = true) :
    op.has_dest = false := by
  revert op h; decide

lemma dest_producer_disjoint (op : IROpcode) (h : op.has_dest = true) :
    (op.is_invoke || op.is_filled_new_array
      || op.has_move_result_pseudo) = false := by
  revert op h; decide

lemma producer_no_dest (op : IROpcode)
    (h : (op.is_invoke || op.is_filled_new_array
           || op.has_move_result_pseudo) = true) :
    op.has_dest = false := by
  revert op h; decide

lemma update_liveness_mono (regs : ℕ) (i : IRInstruction) {l l' : Finset ℕ}
    (h : l ⊆ l') : update_liveness regs i l ⊆ update_liveness regs i l' := by
  intro x hx
  rw [mem_update_liveness] at hx ⊢
  rcases hx with h1 | h2 | ⟨h3, h4, h5⟩
  · exact Or.inl h1
  · exact Or.inr (Or.inl h2)
  · exact Or.inr (Or.inr ⟨h h3, h4, h5⟩)

/-- Monotonicity: `is_required` is monotone in the liveness vector: the only
live-dependent branches test single bits. -/
lemma is_required_mono (o : DceOracle) (regs : ℕ) (succs : List Edge)
    (i : IRInstruction) {l l' : Finset ℕ} (h : l ⊆ l')
    (hreq : is_required o regs succs i l = true) :
    is_required o regs succs i l' = true := by
  by_cases h1 : i.opcode.has_side_effects = true
  · by_cases h2 : i.opcode.is_invoke = true
    · cases hres : o.resolve i.opcode i.mref with
      | none => simp [is_required, h1, h2, hres]
      | some m =>
        by_cases h3 : assumenosideeffects o i.mref m = true
        · simp only [is_required, h1, if_true, h2, hres, h3,
            Bool.not_true, Bool.false_eq_true, if_false,
            decide_eq_true_eq] at hreq ⊢
          exact h hreq
        · simp [is_required, h1, h2, hres, h3]
    · simp only [is_required, h1, if_true, h2, Bool.false_eq_true,
        if_false] at hreq ⊢
      exact hreq
  · by_cases hd : i.has_dest = true
    · simp only [is_required, h1, Bool.false_eq_true, if_false, hd, if_true,
        decide_eq_true_eq] at hreq ⊢
      exact h hreq
    · by_cases hf : (i.opcode.is_filled_new_array
          || i.has_move_result_pseudo) = true
      · simp only [is_required, h1, Bool.false_eq_true, if_false, hd, hf,
          if_true, decide_eq_true_eq] at hreq ⊢
        exact h hreq
      · simp [is_required, h1, hd, hf] at hreq

/-- The delicate mixed case of the transfer monotonicity: if `i` is not
required at `l` but is required at the larger `l'`, then everything live
in `l` survives `update_liveness` at `l'` (the bits the update kills are
exactly bits `is_required` found dead in `l`). -/
lemma not_required_sub_update (o : DceOracle) (regs : ℕ) (succs : List Edge)
    (i : IRInstruction) {l l' : Finset ℕ} (h : l ⊆ l')
    (hnr : is_required o regs succs i l = false)
    (hq' : is_required o regs succs i l' = true) :
    l ⊆ update_liveness regs i l' := by
  by_cases h1 : i.opcode.has_side_effects = true
  · by_cases h2 : i.opcode.is_invoke = true
    · cases hres : o.resolve i.opcode i.mref with
      | none => simp [is_required, h1, h2, hres] at hnr
      | some m =>
        by_cases h3 : assumenosideeffects o i.mref m = true
        · simp only [is_required, h1, if_true, h2, hres, h3, Bool.not_true,
            Bool.false_eq_true, if_false, decide_eq_false_iff_not] at hnr
          intro x hx
          rw [mem_update_liveness]
          refine Or.inr (Or.inr ⟨h hx, ?_, ?_⟩)
          · intro hdd
            have := invoke_no_dest i.opcode h2
            rw [IRInstruction.has_dest, this] at hdd
            exact absurd hdd (by simp)
          · intro _ heq
            exact hnr (heq ▸ hx)
        · simp [is_required, h1, h2, hres, h3] at hnr
    · simp only [is_required, h1, if_true, h2, Bool.false_eq_true,
        if_false] at hnr hq'
      rw [hnr] at hq'
      exact absurd hq' (by simp)
  · by_cases hd : i.has_dest = true
    · simp only [is_required, h1, Bool.false_eq_true, if_false, hd, if_true,
        decide_eq_false_iff_not] at hnr
      intro x hx
      rw [mem_update_liveness]
      refine Or.inr (Or.inr ⟨h hx, ?_, ?_⟩)
      · intro _ heq
        exact hnr (heq ▸ hx)
      · intro hprod
        have hdd : i.opcode.has_dest = true := hd
        simp only [IRInstruction.has_move_result_pseudo] at hprod
        rw [dest_producer_disjoint i.opcode hdd] at hprod
        exact absurd hprod (by simp)
    · by_cases hf : (i.opcode.is_filled_new_array
          || i.has_move_result_pseudo) = true
      · simp only [is_required, h1, Bool.false_eq_true, if_false, hd, hf,
          if_true, decide_eq_false_iff_not] at hnr
        intro x hx
        rw [mem_update_liveness]
        refine Or.inr (Or.inr ⟨h hx, ?_, ?_⟩)
        · intro hdd
          exact absurd hdd hd
        · intro _ heq
          exact hnr (heq ▸ hx)
      · simp [is_required, h1, hd, hf] at hq'

/-- One instruction of the reverse walk is a monotone set transformer. -/
lemma step_mono (o : DceOracle) (regs : ℕ) (succs : List Edge)
    (i : IRInstruction) {l l' : Finset ℕ} (h : l ⊆ l') :
    (if is_required o regs succs i l then update_liveness regs i l else l)
      ⊆ (if is_required o regs succs i l' then update_liveness regs i l'
          else l') := by
  by_cases hq : is_required o regs succs i l = true
  · have hq' := is_required_mono o regs succs i h hq
    simpa [hq, hq'] using update_liveness_mono regs i h
  · have hq0 : is_required o regs succs i l = false := by
      simpa using hq
    by_cases hq' : is_required o regs succs i l' = true
    · simpa [hq0, hq'] using not_required_sub_update o regs succs i h hq0 hq'
    · have hq'0 : is_required o regs succs i l' = false := by
        simpa using hq'
      simpa [hq0, hq'0] using h

/-- The live-in result of `walkRev` only depends on the stepped liveness
vector, not on the recorded dead list. -/
lemma walkRev_fst (o : DceOracle) (regs : ℕ) (succs : List Edge)
    (i : IRInstruction) (rest : List IRInstruction) (l : Finset ℕ) :
    (walkRev o regs succs (i :: rest) l).1 =
      (walkRev o regs succs rest
        (if is_required o regs succs i l then update_liveness regs i l
         else l)).1 := by
  by_cases hq : is_required o regs succs i l = true
  · simp [walkRev, hq]
  · by_cases hp : i.opcode.is_move_result_pseudo = true <;>
      simp [walkRev, hq, hp]

lemma walkRev_live_mono (o : DceOracle) (regs : ℕ) (succs : List Edge)
    (xs : List IRInstruction) {l l' : Finset ℕ} (h : l ⊆ l') :
    (walkRev o regs succs xs l).1 ⊆ (walkRev o regs succs xs l').1 := by
  induction xs generalizing l l' with
  | nil => simpa [walkRev] using h
  | cons i rest ih =>
    rw [walkRev_fst, walkRev_fst]
    exact ih (step_mono o regs succs i h)

lemma foldl_union_mono {f g : ℕ → Finset ℕ} (hfg : ∀ j, f j ⊆ g j) :
    ∀ (es : List Edge) {a b : Finset ℕ}, a ⊆ b →
      es.foldl (fun acc e => acc ∪ f e.target) a
        ⊆ es.foldl (fun acc e => acc ∪ g e.target) b := by
  intro es
  induction es with
  | nil => intro a b hab; simpa using hab
  | cons e rest ih =>
    intro a b hab
    simp only [List.foldl_cons]
    exact ih (Finset.union_subset_union hab (hfg e.target))

lemma liveOut_mono {live live' : LiveMap} (h : ∀ j, live j ⊆ live' j)
    (b : Block) : liveOut live b ⊆ liveOut live' b :=
  foldl_union_mono h b.succs (subset_refl ∅)

lemma sweep_fst_mono (o : DceOracle) (regs : ℕ) (bs : List Block)
    {live live' : LiveMap} (h : ∀ j, live j ⊆ live' j) :
    ∀ j, (sweep o regs live bs).1 j ⊆ (sweep o regs live' bs).1 j := by
  induction bs generalizing live live' with
  | nil => simpa [sweep] using h
  | cons b rest ih =>
    have hout : liveOut live b ⊆ liveOut live' b := liveOut_mono h b
    have hblk := walkRev_live_mono o regs b.succs b.insns.reverse hout
    have hupd : ∀ j,
        updateMap live b.id (walkRev o regs b.succs b.insns.reverse
          (liveOut live b)).1 j
          ⊆ updateMap live' b.id (walkRev o regs b.succs b.insns.reverse
              (liveOut live' b)).1 j := by
      intro j
      unfold updateMap
      by_cases hj : j = b.id
      · simpa [hj] using hblk
      · simpa [hj] using h j
    simpa [sweep] using ih hupd

/-! ### Range invariant: all live bits lie below `regs + 1` -/
lemma update_liveness_range (regs : ℕ) (i : IRInstruction) {l : Finset ℕ}
    (hs : ∀ r ∈ i.srcs, r < regs) (hl : l ⊆ Finset.range (regs + 1)) :
    update_liveness regs i l ⊆ Finset.range (regs + 1) := by
  intro x hx
  rw [mem_update_liveness] at hx
  rcases hx with ⟨_, heq⟩ | h2 | ⟨h3, _, _⟩
  · rw [heq]; exact Finset.mem_range.mpr (Nat.lt_succ_self regs)
  · exact Finset.mem_range.mpr (Nat.lt_succ_of_lt (hs x h2))
  · exact hl h3

lemma step_range (o : DceOracle) (regs : ℕ) (succs : List Edge)
    (i : IRInstruction) {l : Finset ℕ} (hs : ∀ r ∈ i.srcs, r < regs)
    (hl : l ⊆ Finset.range (regs + 1)) :
    (if is_required o regs succs i l then update_liveness regs i l else l)
      ⊆ Finset.range (regs + 1) := by
  by_cases hq : is_required o regs succs i l = true
  · simpa [hq] using update_liveness_range regs i hs hl
  · simpa [hq] using hl

lemma walkRev_range (o : DceOracle) (regs : ℕ) (succs : List Edge)
    (xs : List IRInstruction) {l : Finset ℕ}
    (hxs : ∀ i ∈ xs, ∀ r ∈ i.srcs, r < regs)
    (hl : l ⊆ Finset.range (regs + 1)) :
    (walkRev o regs succs xs l).1 ⊆ Finset.range (regs + 1) := by
  induction xs generalizing l with
  | nil => simpa [walkRev] using hl
  | cons i rest ih =>
    rw [walkRev_fst]
    exact ih (fun i' hi' => hxs i' (List.mem_cons_of_mem _ hi'))
      (step_range o regs succs i (hxs i (List.mem_cons_self _ _)) hl)

lemma foldl_union_range {R : ℕ} (live : LiveMap)
    (hlive : ∀ j, live j ⊆ Finset.range R) :
    ∀ (es : List Edge) {a : Finset ℕ}, a ⊆ Finset.range R →
      es.foldl (fun acc e => acc ∪ live e.target) a ⊆ Finset.range R := by
  intro es
  induction es with
  | nil => intro a ha; simpa using ha
  | cons e rest ih =>
    intro a ha
    simp only [List.foldl_cons]
    exact ih (Finset.union_subset ha (hlive e.target))

lemma liveOut_range {R : ℕ} {live : LiveMap}
    (h : ∀ j, live j ⊆ Finset.range R) (b : Block) :
    liveOut live b ⊆ Finset.range R :=
  foldl_union_range live h b.succs (Finset.empty_subset _)

lemma sweep_range (o : DceOracle) (regs : ℕ) (bs : List Block)
    {live : LiveMap}
    (hbs : ∀ b ∈ bs, ∀ i ∈ b.insns, ∀ r ∈ i.srcs, r < regs)
    (hlive : ∀ j, live j ⊆ Finset.range (regs + 1)) :
    ∀ j, (sweep o regs live bs).1 j ⊆ Finset.range (regs + 1) := by
  induction bs generalizing live with
  | nil => simpa [sweep] using hlive
  | cons b rest ih =>
    have hw : (walkRev o regs b.succs b.insns.reverse (liveOut live b)).1
        ⊆ Finset.range (regs + 1) :=
      walkRev_range o regs b.succs b.insns.reverse
        (fun i hi => hbs b (List.mem_cons_self _ _) i (List.mem_reverse.mp hi))
        (liveOut_range hlive b)
    have hupd : ∀ j, updateMap live b.id
        (walkRev o regs b.succs b.insns.reverse (liveOut live b)).1 j
          ⊆ Finset.range (regs + 1) := by
      intro j
      unfold updateMap
      by_cases hj : j = b.id
      · simpa [hj] using hw
      · simpa [hj] using hlive j
    intro j
    simpa [sweep] using
      ih (fun b' hb' => hbs b' (List.mem_cons_of_mem _ hb')) hupd j

/-! ### The `changed` flag and sweep progress -/
/-- Block ids not processed by the sweep are never touched. -/
lemma sweep_id_frozen (o : DceOracle) (regs : ℕ) (bs : List Block)
    (live : LiveMap) (j : ℕ) (hj : j ∉ bs.map Block.id) :
    (sweep o regs live bs).1 j = live j := by
  induction bs generalizing live with
  | nil => simp [sweep]
  | cons b rest ih =>
    simp only [List.map_cons, List.mem_cons, not_or] at hj
    obtain ⟨hj1, hj2⟩ := hj
    simp only [sweep]
    rw [ih _ hj2]
    simp [updateMap, hj1]

/-- If a sweep reports `changed = false`, the liveness map is unchanged. -/
lemma sweep_changed_false_eq (o : DceOracle) (regs : ℕ) (bs : List Block)
    {live : LiveMap} (h : (sweep o regs live bs).2.1 = false) :
    (sweep o regs live bs).1 = live := by
  induction bs generalizing live with
  | nil => simp [sweep]
  | cons b rest ih =>
    simp only [sweep, Bool.or_eq_false_iff, decide_eq_false_iff_not, ne_eq,
      not_not] at h
    obtain ⟨h1, h2⟩ := h
    have hupd : updateMap live b.id
        (walkRev o regs b.succs b.insns.reverse (liveOut live b)).1 = live := by
      funext j
      unfold updateMap
      by_cases hj : j = b.id
      · simp [hj, h1]
      · simp [hj]
    simp only [sweep]
    rw [hupd] at h2 ⊢
    exact ih h2

/-- If a sweep reports `changed = true` and block ids are distinct, some
block's final vector differs from its previous vector. -/
lemma sweep_changed_true_exists (o : DceOracle) (regs : ℕ) (bs : List Block)
    {live : LiveMap} (hnd : (bs.map Block.id).Nodup)
    (h : (sweep o regs live bs).2.1 = true) :
    ∃ b ∈ bs, (sweep o regs live bs).1 b.id ≠ live b.id := by
  induction bs generalizing live with
  | nil => simp [sweep] at h
  | cons b rest ih =>
    simp only [List.map_cons, List.nodup_cons] at hnd
    obtain ⟨hb, hnd'⟩ := hnd
    by_cases hc : (walkRev o regs b.succs b.insns.reverse
        (liveOut live b)).1 = live b.id
    · have h2 : (sweep o regs (updateMap live b.id
          (walkRev o regs b.succs b.insns.reverse (liveOut live b)).1)
            rest).2.1 = true := by
        simp only [sweep] at h
        simpa [hc] using h
      obtain ⟨b', hb', hne⟩ := ih hnd' h2
      refine ⟨b', List.mem_cons_of_mem _ hb', ?_⟩
      have hid : b'.id ≠ b.id := by
        intro heq
        exact hb (heq ▸ List.mem_map_of_mem Block.id hb')
      have hupd : updateMap live b.id
          (walkRev o regs b.succs b.insns.reverse (liveOut live b)).1 b'.id
            = live b'.id := by
        simp [updateMap, hid]
      simp only [sweep]
      rw [hupd] at hne
      exact hne
    · refine ⟨b, List.mem_cons_self _ _, ?_⟩
      have hfroz := sweep_id_frozen o regs rest
        (updateMap live b.id
          (walkRev o regs b.succs b.insns.reverse (liveOut live b)).1)
        b.id hb
      simp only [sweep]
      rw [hfroz]
      simpa [updateMap] using hc

lemma sweepSeq_succ (o : DceOracle) (c : ControlFlowGraph) (n : ℕ) :
    sweepSeq o c (n + 1) = (sweep o c.regs (sweepSeq o c n) c.blocks).1 :=
  Function.iterate_succ_apply' _ n _

/-- Monotone growth across sweeps: each block's liveness vector only
gains bits from one sweep to the next. -/
lemma sweepSeq_mono (o : DceOracle) (c : ControlFlowGraph) :
    ∀ n j, sweepSeq o c n j ⊆ sweepSeq o c (n + 1) j := by
  intro n
  induction n with
  | zero =>
    intro j
    have h0 : sweepSeq o c 0 j = ∅ := rfl
    rw [h0]
    exact Finset.empty_subset _
  | succ n ih =>
    intro j
    rw [sweepSeq_succ, sweepSeq_succ]
    exact sweep_fst_mono o c.regs c.blocks ih j

lemma sweepSeq_range (o : DceOracle) (c : ControlFlowGraph)
    (hwf : ∀ b ∈ c.blocks, ∀ i ∈ b.insns, ∀ r ∈ i.srcs, r < c.regs) :
    ∀ n j, sweepSeq o c n j ⊆ Finset.range (c.regs + 1) := by
  intro n
  induction n with
  | zero =>
    intro j
    have h0 : sweepSeq o c 0 j = ∅ := rfl
    rw [h0]
    exact Finset.empty_subset _
  | succ n ih =>
    intro j
    rw [sweepSeq_succ]
    exact sweep_range o c.regs c.blocks hwf ih j

lemma phi_lt (c : ControlFlowGraph) {live live' : LiveMap}
    (hmono : ∀ j, live j ⊆ live' j)
    (hne : ∃ b ∈ c.blocks, live' b.id ≠ live b.id) :
    phi c live < phi c live' := by
  obtain ⟨b0, hb0, hne0⟩ := hne
  apply Finset.sum_lt_sum
  · intro b _
    exact Finset.card_le_card (hmono b.id)
  · refine ⟨b0, List.mem_toFinset.mpr hb0, ?_⟩
    exact Finset.card_lt_card
      (Finset.ssubset_iff_subset_ne.mpr ⟨hmono b0.id, Ne.symm hne0⟩)

lemma phi_le (c : ControlFlowGraph) {live : LiveMap}
    (h : ∀ j, live j ⊆ Finset.range (c.regs + 1)) :
    phi c live ≤ c.blocks.length * (c.regs + 1) := by
  calc phi c live ≤ c.blocks.toFinset.sum (fun _ => c.regs + 1) :=
        Finset.sum_le_sum (fun b _ => by
          simpa using Finset.card_le_card (h b.id))
    _ = c.blocks.toFinset.card * (c.regs + 1) := by
        rw [Finset.sum_const, smul_eq_mul]
    _ ≤ c.blocks.length * (c.regs + 1) :=
        Nat.mul_le_mul_right _ c.blocks.toFinset_card_le

lemma phi_growth (o : DceOracle) (c : ControlFlowGraph)
    (hnd : (c.blocks.map Block.id).Nodup) :
    ∀ n, (∀ m, m < n → changedAt o c m = true) →
      n ≤ phi c (sweepSeq o c n) := by
  intro n
  induction n with
  | zero => intro _; exact Nat.zero_le _
  | succ n ih =>
    intro hall
    have h1 : n ≤ phi c (sweepSeq o c n) :=
      ih (fun m hm => hall m (Nat.lt_succ_of_lt hm))
    have hch : changedAt o c n = true := hall n (Nat.lt_succ_self n)
    have hex := sweep_changed_true_exists o c.regs c.blocks hnd hch
    have hlt : phi c (sweepSeq o c n) < phi c (sweepSeq o c (n + 1)) := by
      apply phi_lt c (sweepSeq_mono o c n)
      obtain ⟨b, hb, hne⟩ := hex
      refine ⟨b, hb, ?_⟩
      rw [sweepSeq_succ]
      exact hne
    omega

lemma changed_eventually_false (o : DceOracle) (c : ControlFlowGraph)
    (hnd : (c.blocks.map Block.id).Nodup)
    (hwf : ∀ b ∈ c.blocks, ∀ i ∈ b.insns, ∀ r ∈ i.srcs, r < c.regs) :
    ∃ m, m ≤ c.blocks.length * (c.regs + 1) ∧ changedAt o c m = false := by
  by_contra hcon
  push_neg at hcon
  have hall : ∀ m, m < c.blocks.length * (c.regs + 1) + 1 →
      changedAt o c m = true := by
    intro m hm
    have := hcon m (by omega)
    simpa using this
  have h1 := phi_growth o c hnd (c.blocks.length * (c.regs + 1) + 1) hall
  have h2 := phi_le c (sweepSeq_range o c hwf
    (c.blocks.length * (c.regs + 1) + 1))
  omega

/-- The do-while loop, started with enough fuel, returns after
`N + 1` sweeps where `N` is the first sweep index whose `changed` flag
is false. -/
lemma dceIter_run (o : DceOracle) (c : ControlFlowGraph)
    (hex : ∃ m, changedAt o c m = false) :
    ∀ fuel k, k ≤ Nat.find hex → Nat.find hex - k < fuel →
      ∃ lf ds, dceIter o c fuel (sweepSeq o c k)
        = some (Nat.find hex - k + 1, lf, ds) := by
  intro fuel
  induction fuel with
  | zero => intro k _ h; omega
  | succ fuel ih =>
    intro k hk hfk
    by_cases hkN : k = Nat.find hex
    · have hNf : changedAt o c k = false := by
        rw [hkN]; exact Nat.find_spec hex
      rw [changedAt] at hNf
      have h0 : Nat.find hex - k + 1 = 1 := by omega
      refine ⟨(sweep o c.regs (sweepSeq o c k) c.blocks).1,
        (sweep o c.regs (sweepSeq o c k) c.blocks).2.2, ?_⟩
      rw [h0]
      simp only [dceIter, hNf, Bool.false_eq_true, if_false]
    · have hkN' : k < Nat.find hex := lt_of_le_of_ne hk hkN
      have hct : changedAt o c k = true := by
        have := Nat.find_min hex hkN'
        simpa using this
      rw [changedAt] at hct
      obtain ⟨lf, ds, hrec⟩ := ih (k + 1) (by omega) (by omega)
      refine ⟨lf, ds, ?_⟩
      have hstep : (sweep o c.regs (sweepSeq o c k) c.blocks).1
          = sweepSeq o c (k + 1) := (sweepSeq_succ o c k).symm
      have harith : Nat.find hex - (k + 1) + 1 + 1 = Nat.find hex - k + 1 := by
        omega
      simp only [dceIter, hct, if_true, hstep, hrec]
      simp [harith]

/-- C4 counterexample: on `exampleCfg` the do-while loop executes 3 full
sweeps (bit v0 arrives in sweep 1, the return-value-slot bit only in
sweep 2, sweep 3 confirms the fixed point), exceeding the claimed bound
of (number of blocks × register count) = 1 · 1 = 1 — and even
1 · (1 + 1) = 2. -/
theorem C4_counterexample_sweep_bound :
    dceSweepCount exampleOracle exampleCfg 5 = some 3
    ∧ exampleCfg.blocks.length * exampleCfg.regs < 3
    ∧ exampleCfg.blocks.length * (exampleCfg.regs + 1) < 3 := by
  refine ⟨by decide, by decide, by decide⟩

/-- C4 (amended): across sweeps each block's liveness bit-vector only
gains bits (monotone growth) and every bit lies below `regs + 1`, so the
do-while loop reaches its fixed point: the number of full sweeps — the
changed ones plus the final confirming one — is bounded by
(number of blocks × (register count + 1)) + 1.  Block ids are distinct
and source registers lie below the register count. -/
theorem C4_amended_monotone_bounded_sweeps (o : DceOracle)
    (c : ControlFlowGraph) (hnd : (c.blocks.map Block.id).Nodup)
    (hwf : ∀ b ∈ c.blocks, ∀ i ∈ b.insns, ∀ r ∈ i.srcs, r < c.regs) :
    (∀ n j, sweepSeq o c n j ⊆ sweepSeq o c (n + 1) j)
    ∧ ∃ cnt lf ds,
        dceIter o c (c.blocks.length * (c.regs + 1) + 2) (fun _ => ∅)
          = some (cnt, lf, ds)
        ∧ cnt ≤ c.blocks.length * (c.regs + 1) + 1 := by
  refine ⟨sweepSeq_mono o c, ?_⟩
  obtain ⟨m, hm, hmf⟩ := changed_eventually_false o c hnd hwf
  have hex : ∃ m, changedAt o c m = false := ⟨m, hmf⟩
  have hNle : Nat.find hex ≤ m := Nat.find_min' hex hmf
  obtain ⟨lf, ds, hrun⟩ := dceIter_run o c hex
    (c.blocks.length * (c.regs + 1) + 2) 0 (Nat.zero_le _) (by omega)
  refine ⟨Nat.find hex + 1, lf, ds, ?_, by omega⟩
  have h0 : sweepSeq o c 0 = (fun _ => ∅) := rfl
  rw [← h0]
  simpa using hrun

/-- Witness for the amended C4 at `exampleCfg`. -/
theorem C4_amended_witness :
    ((exampleCfg.blocks.map Block.id).Nodup
      ∧ ∀ b ∈ exampleCfg.blocks, ∀ i ∈ b.insns, ∀ r ∈ i.srcs,
          r < exampleCfg.regs)
    ∧ ((∀ n j, sweepSeq exampleOracle exampleCfg n j
          ⊆ sweepSeq exampleOracle exampleCfg (n + 1) j)
       ∧ ∃ cnt lf ds,
          dceIter exampleOracle exampleCfg
              (exampleCfg.blocks.length * (exampleCfg.regs + 1) + 2)
              (fun _ => ∅)
            = some (cnt, lf, ds)
          ∧ cnt ≤ exampleCfg.blocks.length * (exampleCfg.regs + 1) + 1) :=
  ⟨⟨by decide, by decide⟩,
    C4_amended_monotone_bounded_sweeps exampleOracle exampleCfg
      (by decide) (by decide)⟩

/-- C6: During the backward sweep, a not-required move-result-pseudo
entry is never recorded in the dead-instruction list (it is removed
automatically with its paired primary instruction); and in the deletion
phase each recorded instruction is passed to `Block::remove_insn` at
most once, even if it occurs several times in the recorded list — the
emitted removal sequence is duplicate-free. -/
theorem C6_no_pseudo_recorded_and_no_double_removal
    (o : DceOracle) (regs : ℕ) (live : LiveMap) (bs : List Block)
    (recorded : List (ℕ × IRInstruction)) :
    (∀ p ∈ (sweep o regs live bs).2.2,
      p.2.opcode.is_move_result_pseudo = false)
    ∧ (deletionSequence recorded ∅).Nodup :=
  ⟨sweep_no_pseudo o regs live bs,
    (deletionSequence_nodup recorded ∅).1⟩

/-- Witness for C5 at a concrete required `move v0, v1` with liveness
vector of size 3 (2 registers + return-value slot). -/
theorem C5_witness :
    ((0 : ℕ) < 2 ∧ ∀ r ∈ [(1 : ℕ)], r < 2) ∧
    (((⟨IROpcode.MOVE, 0, [1], 0⟩ : IRInstruction).has_dest = true →
      (0 : ℕ) ∉ [(1 : ℕ)] →
      (0 : ℕ) ∉ update_liveness 2 ⟨IROpcode.MOVE, 0, [1], 0⟩ {0})
    ∧ (∀ r ∈ [(1 : ℕ)], r ∈ update_liveness 2 ⟨IROpcode.MOVE, 0, [1], 0⟩ {0})
    ∧ (((IROpcode.MOVE : IROpcode).is_invoke
          || (IROpcode.MOVE : IROpcode).is_filled_new_array
          || (⟨IROpcode.MOVE, 0, [1], 0⟩ : IRInstruction).has_move_result_pseudo)
            = true →
        (2 : ℕ) ∉ update_liveness 2 ⟨IROpcode.MOVE, 0, [1], 0⟩ {0})
    ∧ ((IROpcode.MOVE : IROpcode).is_move_result_any = true →
        (2 : ℕ) ∈ update_liveness 2 ⟨IROpcode.MOVE, 0, [1], 0⟩ {0})) :=
  ⟨⟨by decide, by simp⟩,
    C5_update_liveness_effects 2 ⟨IROpcode.MOVE, 0, [1], 0⟩ {0}
      (by decide) (by simp)⟩

lemma insnsFor_nil (changes : List Change) (k : Insert) (u : ℕ)
    (h : ∀ ch ∈ changes, ch.anchor ≠ u) : insnsFor changes k u = [] := by
  unfold insnsFor
  have hf : changes.filter (fun ch => decide (ch.kind = k ∧ ch.anchor = u))
      = [] := by
    rw [List.filter_eq_nil_iff]
    intro ch hch
    simp [h ch hch]
  rw [hf]
  rfl

lemma replFor_none (changes : List Change) (u : ℕ)
    (h : ∀ ch ∈ changes, ch.anchor ≠ u) : replFor changes u = none := by
  unfold replFor
  have hf : changes.find? (fun ch =>
      decide (ch.kind = Insert.Replacing ∧ ch.anchor = u)) = none := by
    rw [List.find?_eq_none]
    intro ch hch
    simp [h ch hch]
  rw [hf]
  rfl

/-- Positions none of the pending changes anchor at pass through the
flush walk unchanged. -/
lemma flushAux_untouched (changes : List Change) (xs : List MInsn)
    (h : ∀ m ∈ xs, ∀ ch ∈ changes, ch.anchor ≠ m.uid) :
    flushAux changes xs false = xs.map MInsn.insn := by
  induction xs with
  | nil => rfl
  | cons m rest ih =>
    have hm := h m (List.mem_cons_self _ _)
    simp only [flushAux, Bool.false_and, Bool.false_eq_true, if_false,
      insnsFor_nil changes Insert.Before m.uid hm,
      insnsFor_nil changes Insert.After m.uid hm,
      replFor_none changes m.uid hm, List.nil_append, List.map_cons]
    rw [ih (fun m' hm' => h m' (List.mem_cons_of_mem _ hm'))]

/-- A prefix none of the pending changes anchor at passes through the
flush walk unchanged, and the walk continues on the rest. -/
lemma flushAux_append_untouched (changes : List Change)
    (pre rest : List MInsn)
    (h : ∀ m ∈ pre, ∀ ch ∈ changes, ch.anchor ≠ m.uid) :
    flushAux changes (pre ++ rest) false
      = pre.map MInsn.insn ++ flushAux changes rest false := by
  induction pre with
  | nil => simp
  | cons m pre' ih =>
    have hm := h m (List.mem_cons_self _ _)
    simp only [List.cons_append, flushAux, Bool.false_and,
      Bool.false_eq_true, if_false,
      insnsFor_nil changes Insert.Before m.uid hm,
      insnsFor_nil changes Insert.After m.uid hm,
      replFor_none changes m.uid hm, List.nil_append, List.map_cons]
    simp only [List.append_eq]
    rw [ih (fun m' hm' => h m' (List.mem_cons_of_mem _ hm'))]

/-- Validation of the model against the `CFGMutationTest.MultipleInsertsAfter`
fixture. -/
lemma flush_fixture_multiple_inserts_after :
    flush [⟨Insert.After, 0, [⟨IROpcode.CONST, 1, [], 0⟩]⟩,
           ⟨Insert.After, 0, [⟨IROpcode.CONST, 2, [], 0⟩]⟩]
        [⟨0, ⟨IROpcode.CONST, 0, [], 0⟩⟩, ⟨1, ⟨IROpcode.CONST, 3, [], 0⟩⟩,
         ⟨2, ⟨IROpcode.RETURN_VOID, 0, [], 0⟩⟩]
      = [⟨IROpcode.CONST, 0, [], 0⟩, ⟨IROpcode.CONST, 1, [], 0⟩,
         ⟨IROpcode.CONST, 2, [], 0⟩, ⟨IROpcode.CONST, 3, [], 0⟩,
         ⟨IROpcode.RETURN_VOID, 0, [], 0⟩] := by
  decide

/-- Validation of the model against the `CFGMutationTest.ReplaceHasMovePseudo`
fixture. -/
lemma flush_fixture_replace_has_move_pseudo :
    flush [⟨Insert.Replacing, 1, [⟨IROpcode.CONST, 1, [], 0⟩]⟩]
        [⟨0, ⟨IROpcode.CONST, 0, [], 0⟩⟩,
         ⟨1, ⟨IROpcode.INSTANCE_OF, 0, [0], 0⟩⟩,
         ⟨2, ⟨IROpcode.MOVE_RESULT_PSEUDO, 1, [], 0⟩⟩,
         ⟨3, ⟨IROpcode.RETURN_VOID, 0, [], 0⟩⟩]
      = [⟨IROpcode.CONST, 0, [], 0⟩, ⟨IROpcode.CONST, 1, [], 0⟩,
         ⟨IROpcode.RETURN_VOID, 0, [], 0⟩] := by
  decide

/-- Validation of the model against the `CFGMutationTest.Replacing`
fixture (anchor without a move-result-pseudo). -/
lemma flush_fixture_replacing :
    flush [⟨Insert.Replacing, 1, [⟨IROpcode.CONST, 1, [], 0⟩]⟩]
        [⟨0, ⟨IROpcode.CONST, 0, [], 0⟩⟩, ⟨1, ⟨IROpcode.CONST, 2, [], 0⟩⟩,
         ⟨2, ⟨IROpcode.RETURN_VOID, 0, [], 0⟩⟩]
      = [⟨IROpcode.CONST, 0, [], 0⟩, ⟨IROpcode.CONST, 1, [], 0⟩,
         ⟨IROpcode.RETURN_VOID, 0, [], 0⟩] := by
  decide

/-- C7: Flushing a `Replacing` change whose anchor carries an associated
move-result-pseudo entry removes both the anchor and its paired pseudo
and inserts the replacement instructions in their place; the resulting
stream contains no orphaned move-result-pseudo (if the surrounding code
and the replacements contain no pseudo entries, neither does the
result).  The anchor's identity occurs nowhere else in the stream. -/
theorem C7_replacing_removes_paired_pseudo
    (pre post : List MInsn) (a ps : MInsn) (rs : List IRInstruction)
    (ha : a.insn.has_move_result_pseudo = true)
    (hps : ps.insn.opcode.is_move_result_pseudo = true)
    (h : ∀ m ∈ pre ++ post, m.uid ≠ a.uid) :
    flush [⟨Insert.Replacing, a.uid, rs⟩] (pre ++ a :: ps :: post)
      = pre.map MInsn.insn ++ rs ++ post.map MInsn.insn
    ∧ ((∀ i ∈ pre.map MInsn.insn ++ rs ++ post.map MInsn.insn,
          i.opcode.is_move_result_pseudo = false) →
        ∀ i ∈ flush [⟨Insert.Replacing, a.uid, rs⟩] (pre ++ a :: ps :: post),
          i.opcode.is_move_result_pseudo = false) := by
  have hpre : ∀ m ∈ pre, ∀ ch ∈ [(⟨Insert.Replacing, a.uid, rs⟩ : Change)],
      ch.anchor ≠ m.uid := by
    intro m hm ch hch
    simp only [List.mem_singleton] at hch
    rw [hch]
    exact Ne.symm (h m (List.mem_append_left _ hm))
  have hpost : ∀ m ∈ post, ∀ ch ∈ [(⟨Insert.Replacing, a.uid, rs⟩ : Change)],
      ch.anchor ≠ m.uid := by
    intro m hm ch hch
    simp only [List.mem_singleton] at hch
    rw [hch]
    exact Ne.symm (h m (List.mem_append_right _ hm))
  have hb : insnsFor [(⟨Insert.Replacing, a.uid, rs⟩ : Change)]
      Insert.Before a.uid = [] := by simp [insnsFor]
  have haf : insnsFor [(⟨Insert.Replacing, a.uid, rs⟩ : Change)]
      Insert.After a.uid = [] := by simp [insnsFor]
  have hr : replFor [(⟨Insert.Replacing, a.uid, rs⟩ : Change)] a.uid
      = some rs := by simp [replFor]
  have heq : flush [(⟨Insert.Replacing, a.uid, rs⟩ : Change)]
      (pre ++ a :: ps :: post)
        = pre.map MInsn.insn ++ rs ++ post.map MInsn.insn := by
    unfold flush
    rw [flushAux_append_untouched _ _ _ hpre]
    simp only [flushAux, Bool.false_and, Bool.false_eq_true, if_false, hb,
      haf, hr, List.nil_append, List.append_nil, ha, hps, Bool.true_and,
      if_true]
    rw [flushAux_untouched _ _ hpost]
    simp
  exact ⟨heq, fun hno i hi => hno i (heq ▸ hi)⟩

/-- Witness for C7 at the `ReplaceHasMovePseudo` fixture shape:
`const v0; instance-of v0; move-result-pseudo v1; return-void` with the
instance-of replaced by `const v1`. -/
theorem C7_witness :
    ((⟨1, ⟨IROpcode.INSTANCE_OF, 0, [0], 0⟩⟩ :
        MInsn).insn.has_move_result_pseudo = true
      ∧ (⟨2, ⟨IROpcode.MOVE_RESULT_PSEUDO, 1, [], 0⟩⟩ :
          MInsn).insn.opcode.is_move_result_pseudo = true
      ∧ ∀ m ∈ [(⟨0, ⟨IROpcode.CONST, 0, [], 0⟩⟩ : MInsn)] ++
          [(⟨3, ⟨IROpcode.RETURN_VOID, 0, [], 0⟩⟩ : MInsn)],
        m.uid ≠ (⟨1, ⟨IROpcode.INSTANCE_OF, 0, [0], 0⟩⟩ : MInsn).uid)
    ∧ (flush [⟨Insert.Replacing,
          (⟨1, ⟨IROpcode.INSTANCE_OF, 0, [0], 0⟩⟩ : MInsn).uid,
          [⟨IROpcode.CONST, 1, [], 0⟩]⟩]
        ([(⟨0, ⟨IROpcode.CONST, 0, [], 0⟩⟩ : MInsn)] ++
          (⟨1, ⟨IROpcode.INSTANCE_OF, 0, [0], 0⟩⟩ : MInsn) ::
            (⟨2, ⟨IROpcode.MOVE_RESULT_PSEUDO, 1, [], 0⟩⟩ : MInsn) ::
              [(⟨3, ⟨IROpcode.RETURN_VOID, 0, [], 0⟩⟩ : MInsn)])
        = [(⟨0, ⟨IROpcode.CONST, 0, [], 0⟩⟩ : MInsn)].map MInsn.insn
            ++ [⟨IROpcode.CONST, 1, [], 0⟩]
            ++ [(⟨3, ⟨IROpcode.RETURN_VOID, 0, [], 0⟩⟩ : MInsn)].map
                MInsn.insn
      ∧ ((∀ i ∈ [(⟨0, ⟨IROpcode.CONST, 0, [], 0⟩⟩ : MInsn)].map MInsn.insn
            ++ [⟨IROpcode.CONST, 1, [], 0⟩]
            ++ [(⟨3, ⟨IROpcode.RETURN_VOID, 0, [], 0⟩⟩ : MInsn)].map
                MInsn.insn,
          i.opcode.is_move_result_pseudo = false) →
        ∀ i ∈ flush [⟨Insert.Replacing,
            (⟨1, ⟨IROpcode.INSTANCE_OF, 0, [0], 0⟩⟩ : MInsn).uid,
            [⟨IROpcode.CONST, 1, [], 0⟩]⟩]
          ([(⟨0, ⟨IROpcode.CONST, 0, [], 0⟩⟩ : MInsn)] ++
            (⟨1, ⟨IROpcode.INSTANCE_OF, 0, [0], 0⟩⟩ : MInsn) ::
              (⟨2, ⟨IROpcode.MOVE_RESULT_PSEUDO, 1, [], 0⟩⟩ : MInsn) ::
                [(⟨3, ⟨IROpcode.RETURN_VOID, 0, [], 0⟩⟩ : MInsn)]),
          i.opcode.is_move_result_pseudo = false)) :=
  ⟨⟨by decide, by decide, by decide⟩,
    C7_replacing_removes_paired_pseudo
      [⟨0, ⟨IROpcode.CONST, 0, [], 0⟩⟩]
      [⟨3, ⟨IROpcode.RETURN_VOID, 0, [], 0⟩⟩]
      ⟨1, ⟨IROpcode.INSTANCE_OF, 0, [0], 0⟩⟩
      ⟨2, ⟨IROpcode.MOVE_RESULT_PSEUDO, 1, [], 0⟩⟩
      [⟨IROpcode.CONST, 1, [], 0⟩]
      (by decide) (by decide) (by decide)⟩

/-- C8: Queueing two `After` changes on the same anchor `A`, inserting
`X` then `Y` in that call order, and flushing yields `A, X, Y` in the
stream — never `A, Y, X`; symmetrically two `Before` changes inserting
`X` then `Y` yield `X, Y, A`.  The anchor's identity occurs nowhere else
in the stream. -/
theorem C8_insertion_order_preserved
    (pre post : List MInsn) (a : MInsn) (X Y : IRInstruction)
    (h : ∀ m ∈ pre ++ post, m.uid ≠ a.uid) :
    flush [⟨Insert.After, a.uid, [X]⟩, ⟨Insert.After, a.uid, [Y]⟩]
        (pre ++ a :: post)
      = pre.map MInsn.insn ++ a.insn :: X :: Y :: post.map MInsn.insn
    ∧ flush [⟨Insert.Before, a.uid, [X]⟩, ⟨Insert.Before, a.uid, [Y]⟩]
        (pre ++ a :: post)
      = pre.map MInsn.insn ++ X :: Y :: a.insn :: post.map MInsn.insn := by
  have hanchor : ∀ (k1 k2 : Insert), ∀ m ∈ pre ++ post,
      ∀ ch ∈ [(⟨k1, a.uid, [X]⟩ : Change), ⟨k2, a.uid, [Y]⟩],
        ch.anchor ≠ m.uid := by
    intro k1 k2 m hm ch hch
    have huid : ch.anchor = a.uid := by
      simp only [List.mem_cons, List.not_mem_nil, or_false] at hch
      rcases hch with rfl | rfl <;> rfl
    rw [huid]
    exact Ne.symm (h m hm)
  constructor
  · have hb : insnsFor
        [(⟨Insert.After, a.uid, [X]⟩ : Change), ⟨Insert.After, a.uid, [Y]⟩]
        Insert.Before a.uid = [] := by simp [insnsFor]
    have haf : insnsFor
        [(⟨Insert.After, a.uid, [X]⟩ : Change), ⟨Insert.After, a.uid, [Y]⟩]
        Insert.After a.uid = [X, Y] := by simp [insnsFor]
    have hr : replFor
        [(⟨Insert.After, a.uid, [X]⟩ : Change), ⟨Insert.After, a.uid, [Y]⟩]
        a.uid = none := by simp [replFor]
    unfold flush
    rw [flushAux_append_untouched _ _ _
      (fun m hm => hanchor Insert.After Insert.After m
        (List.mem_append_left _ hm))]
    simp only [flushAux, Bool.false_and, Bool.false_eq_true, if_false, hb,
      haf, hr, List.nil_append]
    rw [flushAux_untouched _ _
      (fun m hm => hanchor Insert.After Insert.After m
        (List.mem_append_right _ hm))]
    simp
  · have hb : insnsFor
        [(⟨Insert.Before, a.uid, [X]⟩ : Change),
          ⟨Insert.Before, a.uid, [Y]⟩]
        Insert.Before a.uid = [X, Y] := by simp [insnsFor]
    have haf : insnsFor
        [(⟨Insert.Before, a.uid, [X]⟩ : Change),
          ⟨Insert.Before, a.uid, [Y]⟩]
        Insert.After a.uid = [] := by simp [insnsFor]
    have hr : replFor
        [(⟨Insert.Before, a.uid, [X]⟩ : Change),
          ⟨Insert.Before, a.uid, [Y]⟩]
        a.uid = none := by simp [replFor]
    unfold flush
    rw [flushAux_append_untouched _ _ _
      (fun m hm => hanchor Insert.Before Insert.Before m
        (List.mem_append_left _ hm))]
    simp only [flushAux, Bool.false_and, Bool.false_eq_true, if_false, hb,
      haf, hr, List.nil_append]
    rw [flushAux_untouched _ _
      (fun m hm => hanchor Insert.Before Insert.Before m
        (List.mem_append_right _ hm))]
    simp

/-- Witness for C8 at the `MultipleInsertsAfter` fixture shape:
anchor `const v0`, insertions `const v1` then `const v2`, followed by
`const v3; return-void`. -/
theorem C8_witness :
    (∀ m ∈ ([] : List MInsn) ++
        [(⟨1, ⟨IROpcode.CONST, 3, [], 0⟩⟩ : MInsn),
         ⟨2, ⟨IROpcode.RETURN_VOID, 0, [], 0⟩⟩],
      m.uid ≠ (⟨0, ⟨IROpcode.CONST, 0, [], 0⟩⟩ : MInsn).uid)
    ∧ (flush [⟨Insert.After, (⟨0, ⟨IROpcode.CONST, 0, [], 0⟩⟩ : MInsn).uid,
          [⟨IROpcode.CONST, 1, [], 0⟩]⟩,
        ⟨Insert.After, (⟨0, ⟨IROpcode.CONST, 0, [], 0⟩⟩ : MInsn).uid,
          [⟨IROpcode.CONST, 2, [], 0⟩]⟩]
        (([] : List MInsn) ++ (⟨0, ⟨IROpcode.CONST, 0, [], 0⟩⟩ : MInsn) ::
          [(⟨1, ⟨IROpcode.CONST, 3, [], 0⟩⟩ : MInsn),
           ⟨2, ⟨IROpcode.RETURN_VOID, 0, [], 0⟩⟩])
      = ([] : List MInsn).map MInsn.insn ++
          (⟨0, ⟨IROpcode.CONST, 0, [], 0⟩⟩ : MInsn).insn ::
            (⟨IROpcode.CONST, 1, [], 0⟩ : IRInstruction) ::
              (⟨IROpcode.CONST, 2, [], 0⟩ : IRInstruction) ::
                [(⟨1, ⟨IROpcode.CONST, 3, [], 0⟩⟩ : MInsn),
                 ⟨2, ⟨IROpcode.RETURN_VOID, 0, [], 0⟩⟩].map MInsn.insn
    ∧ flush [⟨Insert.Before, (⟨0, ⟨IROpcode.CONST, 0, [], 0⟩⟩ : MInsn).uid,
          [⟨IROpcode.CONST, 1, [], 0⟩]⟩,
        ⟨Insert.Before, (⟨0, ⟨IROpcode.CONST, 0, [], 0⟩⟩ : MInsn).uid,
          [⟨IROpcode.CONST, 2, [], 0⟩]⟩]
        (([] : List MInsn) ++ (⟨0, ⟨IROpcode.CONST, 0, [], 0⟩⟩ : MInsn) ::
          [(⟨1, ⟨IROpcode.CONST, 3, [], 0⟩⟩ : MInsn),
           ⟨2, ⟨IROpcode.RETURN_VOID, 0, [], 0⟩⟩])
      = ([] : List MInsn).map MInsn.insn ++
          (⟨IROpcode.CONST, 1, [], 0⟩ : IRInstruction) ::
            (⟨IROpcode.CONST, 2, [], 0⟩ : IRInstruction) ::
              (⟨0, ⟨IROpcode.CONST, 0, [], 0⟩⟩ : MInsn).insn ::
                [(⟨1, ⟨IROpcode.CONST, 3, [], 0⟩⟩ : MInsn),
                 ⟨2, ⟨IROpcode.RETURN_VOID, 0, [], 0⟩⟩].map MInsn.insn) :=
  ⟨by decide,
    C8_insertion_order_preserved []
      [⟨1, ⟨IROpcode.CONST, 3, [], 0⟩⟩, ⟨2, ⟨IROpcode.RETURN_VOID, 0, [], 0⟩⟩]
      ⟨0, ⟨IROpcode.CONST, 0, [], 0⟩⟩
      ⟨IROpcode.CONST, 1, [], 0⟩ ⟨IROpcode.CONST, 2, [], 0⟩
      (by decide)⟩

end Redex

